import Mathlib

/-!
Verification of the update-acquisition and version-reconciliation subsystem
(`src-tauri/src/commands/misc.rs`).

Strings manipulated by the Rust code are modelled as `List Char` (`Str`).
Paths are strings; the Unix path grammar (separator `/`) is the modelled
platform for `Path::file_name` / `Path::extension`.  Character classes that
Rust treats as Unicode (`char::is_whitespace`, the regex classes `\d` and
`\w`, `str::to_lowercase`) are modelled on the code points relevant to the
data this program handles: the full Unicode White_Space set for trimming,
and ASCII for digits, word characters and lowercasing.
-/

/-- Strings of the modelled program: sequences of characters. -/
abbrev Str := List Char

/-- The Unicode White_Space property, the set `char::is_whitespace` (used by
`str::trim`) tests. -/
def isRustWs (c : Char) : Bool :=
  (0x9 ≤ c.val && c.val ≤ 0xD) || c.val = 0x20 || c.val = 0x85 || c.val = 0xA0 ||
  c.val = 0x1680 || (0x2000 ≤ c.val && c.val ≤ 0x200A) || c.val = 0x2028 ||
  c.val = 0x2029 || c.val = 0x202F || c.val = 0x205F || c.val = 0x3000

/-- Drop trailing characters satisfying `p` (the right half of `str::trim`). -/
def dropTrailing (p : Char → Bool) (l : Str) : Str :=
  (l.reverse.dropWhile p).reverse

/-- `str::trim`: remove leading and trailing whitespace. -/
def rustTrim (l : Str) : Str :=
  dropTrailing isRustWs (l.dropWhile isRustWs)

/-- Split a list at every occurrence of `sep` (the separator is dropped). -/
def splitOnChar (sep : Char) : Str → List Str
  | [] => [[]]
  | c :: rest =>
    let r := splitOnChar sep rest
    if c = sep then [] :: r
    else
      match r with
      | [] => [[c]]
      | g :: gs => (c :: g) :: gs

/-- `std::path::Path::file_name` on the Unix path grammar: the last path
component, after normalising away empty and `.` components; `none` when the
path is empty, is a root, or ends in a `..` component. -/
def rustFileName (raw : Str) : Option Str :=
  let comps := (splitOnChar '/' raw).filter (fun c => !(c = [] || c = ['.']))
  match comps.getLast? with
  | none => none
  | some c => if c = ['.', '.'] then none else some c

/-- The characters `sanitize_download_file_name` replaces with `_`. -/
def forbiddenChar (c : Char) : Bool :=
  c = '/' || c = '\\' || c = ':' || c = '*' || c = '?' || c = '"' ||
  c = '<' || c = '>' || c = '|'

/-- The fixed fallback file name. -/
def fallbackName : Str := "aicodewith-update.bin".toList

/-- `sanitize_download_file_name`: take the final path component (fallback
when absent), replace filesystem-hazardous characters with `_`, trim
whitespace, substitute the fallback for an empty result, cap at 120
characters. -/
def sanitizeDownloadFileName (raw : Str) : Str :=
  let name := (rustFileName raw).getD fallbackName
  let out := name.map (fun ch => if forbiddenChar ch then '_' else ch)
  let trimmed := rustTrim out
  if trimmed = [] then fallbackName else trimmed.take 120

example : sanitizeDownloadFileName "my file?.msi".toList = "my file_.msi".toList := by decide
example : sanitizeDownloadFileName "".toList = fallbackName := by decide
example : sanitizeDownloadFileName "a/b/c.msi".toList = "c.msi".toList := by decide
example : sanitizeDownloadFileName " .. ".toList = "..".toList := by decide
example : sanitizeDownloadFileName "..".toList = fallbackName := by decide

/-! ## Trust Gate (URL validation in `download_and_open_update_package`) -/

/-- The result of `url::Url::parse` as consumed by the command: a scheme and
an optional host.  (`host_str` is `none` for host-less URLs.) -/
structure ParsedUrl where
  scheme : Str
  host : Option Str
deriving DecidableEq, Repr

/-- ASCII lowercasing of one character (`str::to_lowercase` modelled on the
ASCII range, which covers DNS host names). -/
def asciiLower (c : Char) : Char := c.toLower

/-- The lowercased host ends with one of the three allow-listed suffixes. -/
def hostTrusted (host : Str) : Bool :=
  let h := host.map asciiLower
  (".cjjd19.com".toList.isSuffixOf h) || (".123pan.com".toList.isSuffixOf h) ||
  (".123865.com".toList.isSuffixOf h)

def invalidUrlErr (e : Str) : Str := "无效的下载链接: ".toList ++ e
def schemeErr : Str := "不支持的下载链接协议".toList
def missingHostErr : Str := "下载链接缺少域名".toList
def untrustedHostErr : Str := "下载链接域名不受信任".toList

/-- Lines 95–112 of the command: parse, scheme check, host presence check,
allow-list check, in that order; the input is the result of
`url::Url::parse(&url)`. -/
def validateUrl : Except Str ParsedUrl → Except Str ParsedUrl
  | .error e => .error (invalidUrlErr e)
  | .ok p =>
    if p.scheme = "http".toList ∨ p.scheme = "https".toList then
      match p.host with
      | some h => if hostTrusted h then .ok p else .error untrustedHostErr
      | none => .error missingHostErr
    else .error schemeErr

/-- Modelled from the spec: `authorize` accepts exactly the absolute
`http`/`https` URLs whose lowercased host ends with an allow-listed suffix
(spec §4.1 / §8).  Used only to compare with `validateUrl`. -/
def specAuthorizeAccepts : Except Str ParsedUrl → Bool
  | .error _ => false
  | .ok p =>
    decide (p.scheme = "http".toList ∨ p.scheme = "https".toList) &&
    (match p.host with
     | some h => hostTrusted h
     | none => false)

def isOkB {ε α : Type} : Except ε α → Bool
  | .ok _ => true
  | .error _ => false

/-! ## Atomic Fetcher and Installer Dispatcher
(`download_and_open_update_package`, lines 114–178) -/

inductive Platform
  | windows
  | macos
  | linux
deriving DecidableEq, Repr

/-- `Path::extension` of a bare file name (no separators): the portion after
the last `.` that is not the leading character; `none` when there is no such
`.`. -/
def rustExtension (name : Str) : Option Str :=
  match name with
  | [] => none
  | _ :: rest =>
    let comps := splitOnChar '.' rest
    match comps with
    | [] => none
    | [_] => none
    | _ => comps.getLast?

/-- `ext.eq_ignore_ascii_case("msi")` applied to the optional extension. -/
def extIsMsi (name : Str) : Bool :=
  match rustExtension name with
  | some e => e.map asciiLower = "msi".toList
  | none => false

example : extIsMsi "setup.MSI".toList = true := by decide
example : extIsMsi ".msi".toList = false := by decide
example : extIsMsi "a.tar.msi".toList = true := by decide
example : extIsMsi "setup".toList = false := by decide
example : rustExtension "a.".toList = some [] := by decide

/-- One item produced by `res.bytes_stream()`: either the chunk read fails,
or a chunk of bytes arrives and the subsequent `write_all` either succeeds
(`writeErr = none`) or fails. -/
inductive StreamItem
  | readErr (e : Str)
  | chunk (bytes : List Nat) (writeErr : Option Str)
deriving DecidableEq, Repr

/-- The outcomes of every external effect one run of the download command can
attempt, in program order. -/
structure DownloadEnv where
  parse : Except Str ParsedUrl
  fileName : Str
  tempDir : Str
  createDir : Except Str Unit
  clientBuild : Except Str Unit
  send : Except Str Unit
  status : Except Str Unit
  createFile : Except Str Unit
  stream : List StreamItem
  flushRes : Except Str Unit
  renameRes : Except Str Unit
  removeOk : Bool
  platform : Platform
  spawnRes : Except Str Unit
  openRes : Except Str Unit
deriving Repr

/-- The observable filesystem state for the two files a run touches: the
temp file `<sanitized>.partial` and the final artifact. -/
structure FsState where
  dirExists : Bool
  tempExists : Bool
  tempContents : List Nat
  tempFlushed : Bool
  finalExists : Bool
  finalContents : List Nat
  finalFlushed : Bool
deriving DecidableEq, Repr

/-- External effects, in the order the command attempts them. -/
inductive Event
  | netRequest (scheme : Str) (host : Option Str)
  | fsCreateDir (path : Str)
  | fsCreateFile (path : Str)
  | fsWrite (path : Str) (bytes : List Nat)
  | fsRename (src dst : Str)
  | fsRemove (path : Str)
  | spawnDetached (prog : Str) (args : List Str) (noWindow : Bool)
  | openPath (path : Str)
deriving DecidableEq, Repr

structure DownloadAndOpenResult where
  filePath : Str
deriving DecidableEq, Repr

/-- Lines 139–144: consume the byte stream, appending each successfully read
chunk to the temp file; the first read or write failure aborts with the
corresponding error message. -/
def writeLoop (tempPath : Str) :
    List StreamItem → FsState → Except Str Unit × FsState × List Event
  | [], fs => (.ok (), fs, [])
  | .readErr e :: _, fs => (.error ("读取下载数据失败: ".toList ++ e), fs, [])
  | .chunk _ (some e) :: _, fs => (.error ("写入下载文件失败: ".toList ++ e), fs, [])
  | .chunk bytes none :: rest, fs =>
    let out := writeLoop tempPath rest { fs with tempContents := fs.tempContents ++ bytes }
    (out.1, out.2.1, Event.fsWrite tempPath bytes :: out.2.2)

/-- Every stream item is a chunk whose write succeeds. -/
def streamOk : List StreamItem → Bool
  | [] => true
  | .chunk _ none :: rest => streamOk rest
  | _ => false

/-- The bytes successfully written before the stream ends or first fails. -/
def streamBytes : List StreamItem → List Nat
  | .chunk b none :: rest => b ++ streamBytes rest
  | _ => []

def cacheDirOf (env : DownloadEnv) : Str := env.tempDir ++ "/aicodewith-updates".toList

def finalPathOf (env : DownloadEnv) : Str :=
  cacheDirOf env ++ '/' :: sanitizeDownloadFileName env.fileName

def tempPathOf (env : DownloadEnv) : Str :=
  cacheDirOf env ++ '/' :: (sanitizeDownloadFileName env.fileName ++ ".partial".toList)

/-- The exact argument vector `try_start_windows_msi_install` passes to
`msiexec`. -/
def msiArgsOf (env : DownloadEnv) : List Str :=
  ["/i".toList, finalPathOf env, "/passive".toList, "/norestart".toList,
   "AUTOLAUNCHAPP=1".toList]

/-- The run gets as far as the `rename` call: validation and every prior
effect succeeded. -/
def reachedRename (env : DownloadEnv) : Bool :=
  isOkB (validateUrl env.parse) && isOkB env.createDir && isOkB env.clientBuild &&
  isOkB env.send && isOkB env.status && isOkB env.createFile &&
  streamOk env.stream && isOkB env.flushRes

/-- Lines 157–163: the run takes the `msiexec` branch exactly when the
platform is Windows and the final artifact's extension is `msi`
(ASCII-case-insensitively). -/
def msiBranch (env : DownloadEnv) : Bool :=
  (env.platform == Platform.windows) && extIsMsi (sanitizeDownloadFileName env.fileName)

/-- `download_and_open_update_package` (lines 90–178): URL validation, cache
directory creation, HTTP client construction, request send and status check,
temp-file creation, the chunk write loop, flush, rename (with best-effort
temp removal on rename failure), then the platform dispatch: on Windows with
an `msi` extension spawn `msiexec /i <path> /passive /norestart
AUTOLAUNCHAPP=1` detached from any console window without waiting, otherwise
hand the path to the opener plugin. -/
def downloadCommand (env : DownloadEnv) (fs0 : FsState) :
    Except Str DownloadAndOpenResult × FsState × List Event :=
  match validateUrl env.parse with
  | .error e => (.error e, fs0, [])
  | .ok parsed =>
    let file_name := sanitizeDownloadFileName env.fileName
    let cache_dir := cacheDirOf env
    match env.createDir with
    | .error e =>
      (.error ("创建缓存目录失败: ".toList ++ e), fs0, [Event.fsCreateDir cache_dir])
    | .ok _ =>
    let fs1 := { fs0 with dirExists := true }
    let final_path := cache_dir ++ '/' :: file_name
    let temp_path := cache_dir ++ '/' :: (file_name ++ ".partial".toList)
    match env.clientBuild with
    | .error e =>
      (.error ("创建下载客户端失败: ".toList ++ e), fs1, [Event.fsCreateDir cache_dir])
    | .ok _ =>
    let evNet := [Event.fsCreateDir cache_dir, Event.netRequest parsed.scheme parsed.host]
    match env.send with
    | .error e => (.error ("下载请求失败: ".toList ++ e), fs1, evNet)
    | .ok _ =>
    match env.status with
    | .error e => (.error ("下载响应异常: ".toList ++ e), fs1, evNet)
    | .ok _ =>
    match env.createFile with
    | .error e => (.error ("创建下载文件失败: ".toList ++ e), fs1, evNet)
    | .ok _ =>
    let fs2 := { fs1 with tempExists := true, tempContents := [], tempFlushed := false }
    let evBase := evNet ++ [Event.fsCreateFile temp_path]
    match writeLoop temp_path env.stream fs2 with
    | (.error e, fs3, evs) => (.error e, fs3, evBase ++ evs)
    | (.ok _, fs3, evs) =>
    match env.flushRes with
    | .error e => (.error ("刷新下载文件失败: ".toList ++ e), fs3, evBase ++ evs)
    | .ok _ =>
    let fs4 := { fs3 with tempFlushed := true }
    match env.renameRes with
    | .error e =>
      let fs5 := if env.removeOk then { fs4 with tempExists := false, tempContents := [] } else fs4
      (.error ("保存下载文件失败: ".toList ++ e), fs5,
       evBase ++ evs ++ [Event.fsRename temp_path final_path, Event.fsRemove temp_path])
    | .ok _ =>
    let fs5 := { fs4 with
                 tempExists := false
                 tempContents := []
                 tempFlushed := false
                 finalExists := true
                 finalContents := fs4.tempContents
                 finalFlushed := true }
    let evs1 := evBase ++ evs ++ [Event.fsRename temp_path final_path]
    match msiBranch env with
    | true =>
      match env.spawnRes with
      | .error e =>
        (.error ("启动 Windows 安装器失败: ".toList ++ e), fs5,
         evs1 ++ [Event.spawnDetached "msiexec".toList (msiArgsOf env) true])
      | .ok _ =>
        (.ok ⟨final_path⟩, fs5,
         evs1 ++ [Event.spawnDetached "msiexec".toList (msiArgsOf env) true])
    | false =>
      match env.openRes with
      | .error e => (.error ("打开安装包失败: ".toList ++ e), fs5, evs1 ++ [Event.openPath final_path])
      | .ok _ => (.ok ⟨final_path⟩, fs5, evs1 ++ [Event.openPath final_path])

/-- The write events the loop emits: one per successfully written chunk. -/
def writeEvents (tp : Str) : List StreamItem → List Event
  | .chunk b none :: rest => Event.fsWrite tp b :: writeEvents tp rest
  | _ => []

theorem writeLoop_state (tp : Str) (items : List StreamItem) (fs : FsState) :
    (writeLoop tp items fs).2.1 =
      { fs with tempContents := fs.tempContents ++ streamBytes items } ∧
    (writeLoop tp items fs).2.2 = writeEvents tp items ∧
    isOkB (writeLoop tp items fs).1 = streamOk items := by
  induction items generalizing fs with
  | nil => simp [writeLoop, streamBytes, writeEvents, streamOk, isOkB]
  | cons it rest ih =>
    cases it with
    | readErr e => simp [writeLoop, streamBytes, writeEvents, streamOk, isOkB]
    | chunk b w =>
      cases w with
      | none =>
        have h := ih { fs with tempContents := fs.tempContents ++ b }
        simp [writeLoop, streamBytes, writeEvents, streamOk, h.1, h.2.1, h.2.2]
      | some e => simp [writeLoop, streamBytes, writeEvents, streamOk, isOkB]

theorem writeLoop_eq_inv (tp : Str) (items : List StreamItem) (fs : FsState)
    (r : Except Str Unit) (fs' : FsState) (evs : List Event)
    (h : writeLoop tp items fs = (r, fs', evs)) :
    fs' = { fs with tempContents := fs.tempContents ++ streamBytes items } ∧
    evs = writeEvents tp items ∧ isOkB r = streamOk items := by
  have hs := writeLoop_state tp items fs
  rw [h] at hs
  exact hs

theorem downloadCommand_ok_inv (env : DownloadEnv) (fs0 : FsState)
    (r : DownloadAndOpenResult) (fsE : FsState) (evs : List Event)
    (h : downloadCommand env fs0 = (.ok r, fsE, evs)) :
    reachedRename env = true ∧ isOkB env.renameRes = true ∧
    fsE.tempExists = false ∧ fsE.finalExists = true ∧
    fsE.finalContents = streamBytes env.stream ∧ fsE.finalFlushed = true ∧
    r.filePath = finalPathOf env := by
  unfold downloadCommand at h
  cases hv : validateUrl env.parse with
  | error e => rw [hv] at h; simp at h
  | ok p =>
  rw [hv] at h
  dsimp only at h
  cases hcd : env.createDir with
  | error e => rw [hcd] at h; simp at h
  | ok ucd =>
  rw [hcd] at h
  dsimp only at h
  cases hcb : env.clientBuild with
  | error e => rw [hcb] at h; simp at h
  | ok ucb =>
  rw [hcb] at h
  dsimp only at h
  cases hsd : env.send with
  | error e => rw [hsd] at h; simp at h
  | ok usd =>
  rw [hsd] at h
  dsimp only at h
  cases hst : env.status with
  | error e => rw [hst] at h; simp at h
  | ok ust =>
  rw [hst] at h
  dsimp only at h
  cases hcf : env.createFile with
  | error e => rw [hcf] at h; simp at h
  | ok ucf =>
  rw [hcf] at h
  dsimp only at h
  generalize hw : writeLoop _ _ _ = wout at h
  obtain ⟨r1, fs3, evs3⟩ := wout
  have hwi := writeLoop_eq_inv _ _ _ _ _ _ hw
  cases r1 with
  | error e => dsimp only at h; simp at h
  | ok u1 =>
  dsimp only at h
  cases hfl : env.flushRes with
  | error e => rw [hfl] at h; simp at h
  | ok ufl =>
  rw [hfl] at h
  dsimp only at h
  cases hrn : env.renameRes with
  | error e => rw [hrn] at h; simp at h
  | ok urn =>
  rw [hrn] at h
  dsimp only at h
  have hreach : reachedRename env = true := by
    simp [reachedRename, hv, hcd, hcb, hsd, hst, hcf, hfl, isOkB, ← hwi.2.2]
  cases hm : msiBranch env with
  | true =>
    rw [hm] at h
    dsimp only at h
    cases hsp : env.spawnRes with
    | error e => rw [hsp] at h; simp at h
    | ok usp =>
    rw [hsp] at h
    dsimp only at h
    simp only [Prod.mk.injEq, Except.ok.injEq] at h
    obtain ⟨hr, hfs, hevs⟩ := h
    subst hfs
    refine ⟨hreach, by simp [hrn, isOkB], by simp, by simp, ?_, by simp, ?_⟩
    · simp [hwi.1]
    · rw [← hr]; rfl
  | false =>
    rw [hm] at h
    dsimp only at h
    cases hop : env.openRes with
    | error e => rw [hop] at h; simp at h
    | ok uop =>
    rw [hop] at h
    dsimp only at h
    simp only [Prod.mk.injEq, Except.ok.injEq] at h
    obtain ⟨hr, hfs, hevs⟩ := h
    subst hfs
    refine ⟨hreach, by simp [hrn, isOkB], by simp, by simp, ?_, by simp, ?_⟩
    · simp [hwi.1]
    · rw [← hr]; rfl

theorem isOkB_true_unit {x : Except Str Unit} (h : isOkB x = true) : x = .ok () := by
  cases x with
  | ok u => cases u; rfl
  | error e => simp [isOkB] at h

theorem isOkB_true_exists {α : Type} {x : Except Str α} (h : isOkB x = true) :
    ∃ a, x = .ok a := by
  cases x with
  | ok a => exact ⟨a, rfl⟩
  | error e => simp [isOkB] at h

/-- A rejected URL short-circuits the whole command: the rejection is
returned as-is, the filesystem is untouched and no effect event (network or
filesystem) is attempted. -/
theorem downloadCommand_validate_err (env : DownloadEnv) (fs0 : FsState) (e : Str)
    (hv : validateUrl env.parse = .error e) :
    downloadCommand env fs0 = (.error e, fs0, []) := by
  unfold downloadCommand
  rw [hv]

/-- If the final file was absent initially and exists after the run, the
stream was fully consumed, the final contents are the full concatenation of
the streamed chunks, and the file was flushed. -/
theorem downloadCommand_final_inv (env : DownloadEnv) (fs0 : FsState)
    (hclean : fs0.finalExists = false) (res : Except Str DownloadAndOpenResult)
    (fsE : FsState) (evs : List Event)
    (h : downloadCommand env fs0 = (res, fsE, evs)) (hfin : fsE.finalExists = true) :
    streamOk env.stream = true ∧ fsE.finalContents = streamBytes env.stream ∧
    fsE.finalFlushed = true := by
  unfold downloadCommand at h
  cases hv : validateUrl env.parse with
  | error e =>
    rw [hv] at h
    simp only [Prod.mk.injEq] at h
    rw [← h.2.1] at hfin; rw [hclean] at hfin; exact absurd hfin (by simp)
  | ok p =>
  rw [hv] at h
  dsimp only at h
  cases hcd : env.createDir with
  | error e =>
    rw [hcd] at h
    simp only [Prod.mk.injEq] at h
    rw [← h.2.1] at hfin; rw [hclean] at hfin; exact absurd hfin (by simp)
  | ok ucd =>
  rw [hcd] at h
  dsimp only at h
  cases hcb : env.clientBuild with
  | error e =>
    rw [hcb] at h
    simp only [Prod.mk.injEq] at h
    have : fsE.finalExists = fs0.finalExists := by rw [← h.2.1]
    rw [hclean] at this; rw [this] at hfin; exact absurd hfin (by simp)
  | ok ucb =>
  rw [hcb] at h
  dsimp only at h
  cases hsd : env.send with
  | error e =>
    rw [hsd] at h
    simp only [Prod.mk.injEq] at h
    have : fsE.finalExists = fs0.finalExists := by rw [← h.2.1]
    rw [hclean] at this; rw [this] at hfin; exact absurd hfin (by simp)
  | ok usd =>
  rw [hsd] at h
  dsimp only at h
  cases hst : env.status with
  | error e =>
    rw [hst] at h
    simp only [Prod.mk.injEq] at h
    have : fsE.finalExists = fs0.finalExists := by rw [← h.2.1]
    rw [hclean] at this; rw [this] at hfin; exact absurd hfin (by simp)
  | ok ust =>
  rw [hst] at h
  dsimp only at h
  cases hcf : env.createFile with
  | error e =>
    rw [hcf] at h
    simp only [Prod.mk.injEq] at h
    have : fsE.finalExists = fs0.finalExists := by rw [← h.2.1]
    rw [hclean] at this; rw [this] at hfin; exact absurd hfin (by simp)
  | ok ucf =>
  rw [hcf] at h
  dsimp only at h
  generalize hw : writeLoop _ _ _ = wout at h
  obtain ⟨r1, fs3, evs3⟩ := wout
  have hwi := writeLoop_eq_inv _ _ _ _ _ _ hw
  cases r1 with
  | error e =>
    dsimp only at h
    simp only [Prod.mk.injEq] at h
    have : fsE.finalExists = fs3.finalExists := by rw [← h.2.1]
    rw [hwi.1] at this
    simp [hclean] at this
    rw [this] at hfin; exact absurd hfin (by simp)
  | ok u1 =>
  dsimp only at h
  cases hfl : env.flushRes with
  | error e =>
    rw [hfl] at h
    simp only [Prod.mk.injEq] at h
    have : fsE.finalExists = fs3.finalExists := by rw [← h.2.1]
    rw [hwi.1] at this
    simp [hclean] at this
    rw [this] at hfin; exact absurd hfin (by simp)
  | ok ufl =>
  rw [hfl] at h
  dsimp only at h
  cases hrn : env.renameRes with
  | error e =>
    rw [hrn] at h
    dsimp only at h
    cases hrm : env.removeOk with
    | true =>
      rw [hrm] at h
      simp only [Prod.mk.injEq] at h
      have : fsE.finalExists = fs3.finalExists := by rw [← h.2.1]; simp
      rw [hwi.1] at this
      simp [hclean] at this
      rw [this] at hfin; exact absurd hfin (by simp)
    | false =>
      rw [hrm] at h
      simp only [Prod.mk.injEq] at h
      have : fsE.finalExists = fs3.finalExists := by rw [← h.2.1]; simp
      rw [hwi.1] at this
      simp [hclean] at this
      rw [this] at hfin; exact absurd hfin (by simp)
  | ok urn =>
  rw [hrn] at h
  dsimp only at h
  have hcont : ∀ fsE' : FsState, fsE' = { fs3 with
      tempExists := false
      tempContents := []
      tempFlushed := false
      finalExists := true
      finalContents := fs3.tempContents
      finalFlushed := true } →
      streamOk env.stream = true ∧ fsE'.finalContents = streamBytes env.stream ∧
      fsE'.finalFlushed = true := by
    intro fsE' hE
    subst hE
    refine ⟨by rw [← hwi.2.2]; rfl, ?_, by simp⟩
    simp [hwi.1]
  cases hm : msiBranch env with
  | true =>
    rw [hm] at h
    dsimp only at h
    cases hsp : env.spawnRes with
    | error e =>
      rw [hsp] at h
      simp only [Prod.mk.injEq] at h
      exact hcont fsE h.2.1.symm
    | ok usp =>
      rw [hsp] at h
      simp only [Prod.mk.injEq] at h
      exact hcont fsE h.2.1.symm
  | false =>
    rw [hm] at h
    dsimp only at h
    cases hop : env.openRes with
    | error e =>
      rw [hop] at h
      simp only [Prod.mk.injEq] at h
      exact hcont fsE h.2.1.symm
    | ok uop =>
      rw [hop] at h
      simp only [Prod.mk.injEq] at h
      exact hcont fsE h.2.1.symm

/-- On the rename-failure exit path with a successful removal, the command
fails with the persist error, the temp file is gone, and the final file is
exactly as it started. -/
theorem downloadCommand_rename_fail_inv (env : DownloadEnv) (fs0 : FsState)
    (res : Except Str DownloadAndOpenResult) (fsE : FsState) (evs : List Event)
    (h : downloadCommand env fs0 = (res, fsE, evs))
    (hreach : reachedRename env = true) (e : Str)
    (hrn : env.renameRes = .error e) (hrm : env.removeOk = true) :
    res = .error ("保存下载文件失败: ".toList ++ e) ∧ fsE.tempExists = false ∧
    fsE.finalExists = fs0.finalExists := by
  simp only [reachedRename, Bool.and_eq_true] at hreach
  obtain ⟨⟨⟨⟨⟨⟨⟨hv0, hcd0⟩, hcb0⟩, hsd0⟩, hst0⟩, hcf0⟩, hso⟩, hfl0⟩ := hreach
  obtain ⟨p, hv⟩ := isOkB_true_exists hv0
  have hcd := isOkB_true_unit hcd0
  have hcb := isOkB_true_unit hcb0
  have hsd := isOkB_true_unit hsd0
  have hst := isOkB_true_unit hst0
  have hcf := isOkB_true_unit hcf0
  have hfl := isOkB_true_unit hfl0
  unfold downloadCommand at h
  rw [hv] at h
  dsimp only at h
  rw [hcd] at h
  dsimp only at h
  rw [hcb] at h
  dsimp only at h
  rw [hsd] at h
  dsimp only at h
  rw [hst] at h
  dsimp only at h
  rw [hcf] at h
  dsimp only at h
  generalize hw : writeLoop _ _ _ = wout at h
  obtain ⟨r1, fs3, evs3⟩ := wout
  have hwi := writeLoop_eq_inv _ _ _ _ _ _ hw
  have hr1 : isOkB r1 = true := by rw [hwi.2.2]; exact hso
  cases r1 with
  | error e1 => simp [isOkB] at hr1
  | ok u1 =>
  dsimp only at h
  rw [hfl] at h
  dsimp only at h
  rw [hrn] at h
  dsimp only at h
  rw [hrm] at h
  simp only [Prod.mk.injEq] at h
  refine ⟨h.1.symm, ?_, ?_⟩
  · rw [← h.2.1]; simp
  · rw [← h.2.1]; simp [hwi.1]

/-- A filesystem with neither the temp file nor the final file present. -/
def cleanFs : FsState :=
  { dirExists := false, tempExists := false, tempContents := [], tempFlushed := false,
    finalExists := false, finalContents := [], finalFlushed := false }

/-- A trusted parsed URL (`https://cdn.cjjd19.com/pkg.msi`). -/
def okParsedUrl : ParsedUrl := { scheme := "https".toList, host := some "cdn.cjjd19.com".toList }

/-- A run environment in which every external effect succeeds and the stream
delivers the chunks `[1, 2]` then `[3]`. -/
def okEnvBase : DownloadEnv :=
  { parse := .ok okParsedUrl
    fileName := "pkg.msi".toList
    tempDir := "/tmp".toList
    createDir := .ok ()
    clientBuild := .ok ()
    send := .ok ()
    status := .ok ()
    createFile := .ok ()
    stream := [.chunk [1, 2] none, .chunk [3] none]
    flushRes := .ok ()
    renameRes := .ok ()
    removeOk := true
    platform := .linux
    spawnRes := .ok ()
    openRes := .ok () }

theorem streamBytes_chunks (chunks : List (List Nat)) :
    streamBytes (chunks.map (fun b => StreamItem.chunk b none)) = chunks.flatten := by
  induction chunks with
  | nil => simp [streamBytes]
  | cons b rest ih => simp [streamBytes, ih]

/-- C1 (counterexample): a run that passes validation and creates the temp
file but whose stream read fails returns an error while the temp file is
still present — so it is false that every failed return leaves no temp
file. -/
theorem c1_counterexample_temp_left_on_read_failure :
    isOkB (downloadCommand { okEnvBase with stream := [StreamItem.readErr "boom".toList] } cleanFs).1 = false ∧
    (downloadCommand { okEnvBase with stream := [StreamItem.readErr "boom".toList] } cleanFs).2.1.tempExists = true := by
  decide

/-- C1 (amended): starting from a filesystem without the final file, (a) a
successful return leaves no temp file and the final file present; (b) the
final file exists only fully written and flushed (never partial); (c) on the
rename-failure exit path, when the best-effort removal succeeds, the run
fails, removes the temp file and leaves no final file.  (Failures during
stream read, chunk write or flush may leave the temp file in place, as the
counterexample shows.) -/
theorem c1_amended_cleanup (env : DownloadEnv) (fs0 : FsState)
    (res : Except Str DownloadAndOpenResult) (fsE : FsState) (evs : List Event)
    (h : downloadCommand env fs0 = (res, fsE, evs)) (hclean : fs0.finalExists = false) :
    (isOkB res = true → fsE.tempExists = false ∧ fsE.finalExists = true) ∧
    (fsE.finalExists = true → streamOk env.stream = true ∧
        fsE.finalContents = streamBytes env.stream ∧ fsE.finalFlushed = true) ∧
    (reachedRename env = true → isOkB env.renameRes = false → env.removeOk = true →
        isOkB res = false ∧ fsE.tempExists = false ∧ fsE.finalExists = false) := by
  refine ⟨?_, ?_, ?_⟩
  · intro hok
    obtain ⟨r, hr⟩ := isOkB_true_exists hok
    subst hr
    have := downloadCommand_ok_inv env fs0 r fsE evs h
    exact ⟨this.2.2.1, this.2.2.2.1⟩
  · intro hfin
    exact downloadCommand_final_inv env fs0 hclean res fsE evs h hfin
  · intro hreach hrf hrm
    cases hrn : env.renameRes with
    | ok u => rw [hrn] at hrf; simp [isOkB] at hrf
    | error e =>
      have := downloadCommand_rename_fail_inv env fs0 res fsE evs h hreach e hrn hrm
      refine ⟨?_, this.2.1, by rw [this.2.2, hclean]⟩
      rw [this.1]; rfl

/-- Witness for the amended C1 at a concrete rename-failure run. -/
theorem c1_amended_cleanup_witness :
    cleanFs.finalExists = false ∧
    (reachedRename { okEnvBase with renameRes := .error "disk".toList } = true →
     isOkB ({ okEnvBase with renameRes := Except.error "disk".toList } : DownloadEnv).renameRes = false →
     ({ okEnvBase with renameRes := Except.error "disk".toList } : DownloadEnv).removeOk = true →
     isOkB (downloadCommand { okEnvBase with renameRes := .error "disk".toList } cleanFs).1 = false ∧
     (downloadCommand { okEnvBase with renameRes := .error "disk".toList } cleanFs).2.1.tempExists = false ∧
     (downloadCommand { okEnvBase with renameRes := .error "disk".toList } cleanFs).2.1.finalExists = false) :=
  ⟨rfl,
   (c1_amended_cleanup { okEnvBase with renameRes := .error "disk".toList } cleanFs
      _ _ _ rfl rfl).2.2⟩

/-- C3: whenever the Trust Gate rejects (unparseable URL, bad scheme, missing
host or untrusted host), the command returns that rejection with the
filesystem untouched and an empty effect trace — no network request and no
filesystem change is ever attempted before validation completes. -/
theorem c3_rejection_before_any_effect (env : DownloadEnv) (fs0 : FsState) (e : Str)
    (hv : validateUrl env.parse = .error e) :
    downloadCommand env fs0 = (.error e, fs0, []) := by
  unfold downloadCommand
  rw [hv]

/-- Witness: `https://evil.com/pkg.msi` is rejected as untrusted before any
network or filesystem event. -/
theorem c3_rejection_before_any_effect_witness :
    validateUrl ({ okEnvBase with
        parse := .ok { scheme := "https".toList, host := some "evil.com".toList } } : DownloadEnv).parse =
      .error untrustedHostErr ∧
    downloadCommand { okEnvBase with
        parse := .ok { scheme := "https".toList, host := some "evil.com".toList } } cleanFs =
      (.error untrustedHostErr, cleanFs, []) :=
  ⟨rfl,
   c3_rejection_before_any_effect
     { okEnvBase with parse := .ok { scheme := "https".toList, host := some "evil.com".toList } }
     cleanFs untrustedHostErr rfl⟩

/-- C4: when the command returns successfully after streaming the byte
chunks `chunks`, the final file exists, its contents are exactly the
concatenation of all streamed chunks in order, it has been flushed, and the
returned path is the final path. -/
theorem c4_success_final_contents (env : DownloadEnv) (fs0 : FsState)
    (r : DownloadAndOpenResult) (fsE : FsState) (evs : List Event)
    (chunks : List (List Nat))
    (hstream : env.stream = chunks.map (fun b => StreamItem.chunk b none))
    (h : downloadCommand env fs0 = (.ok r, fsE, evs)) :
    fsE.finalExists = true ∧ fsE.finalContents = chunks.flatten ∧
    fsE.finalFlushed = true ∧ fsE.tempExists = false ∧
    r.filePath = finalPathOf env := by
  have hi := downloadCommand_ok_inv env fs0 r fsE evs h
  refine ⟨hi.2.2.2.1, ?_, hi.2.2.2.2.2.1, hi.2.2.1, hi.2.2.2.2.2.2⟩
  rw [hi.2.2.2.2.1, hstream, streamBytes_chunks]

/-- Witness for C4: a successful run streaming `[1,2]` then `[3]` produces a
final file containing `[1,2,3]`. -/
theorem c4_success_final_contents_witness :
    (downloadCommand okEnvBase cleanFs).2.1.finalExists = true ∧
    (downloadCommand okEnvBase cleanFs).2.1.finalContents = [[1, 2], [3]].flatten ∧
    (downloadCommand okEnvBase cleanFs).2.1.finalFlushed = true ∧
    (downloadCommand okEnvBase cleanFs).2.1.tempExists = false ∧
    (DownloadAndOpenResult.mk (finalPathOf okEnvBase)).filePath = finalPathOf okEnvBase :=
  c4_success_final_contents okEnvBase cleanFs ⟨finalPathOf okEnvBase⟩
    (downloadCommand okEnvBase cleanFs).2.1 (downloadCommand okEnvBase cleanFs).2.2
    [[1, 2], [3]] rfl rfl

theorem mem_writeEvents {tp : Str} {items : List StreamItem} {e : Event}
    (h : e ∈ writeEvents tp items) : ∃ b, e = Event.fsWrite tp b := by
  induction items with
  | nil => simp [writeEvents] at h
  | cons it rest ih =>
    cases it with
    | readErr e1 => simp [writeEvents] at h
    | chunk b w =>
      cases w with
      | none =>
        rw [writeEvents] at h
        rcases List.mem_cons.mp h with h1 | h1
        · exact ⟨b, h1⟩
        · exact ih h1
      | some e1 => simp [writeEvents] at h

/-- C9: once the download has completed (rename succeeded), the dispatch is
exactly: on Windows with an `msi`-extension artifact, spawn `msiexec` with
the argument vector `/i <path> /passive /norestart AUTOLAUNCHAPP=1`,
detached from any console window (the spawn is fire-and-forget: the model
has no wait step); in every other case, hand the final path to the host's
default-handler open capability, and never spawn the installer. -/
theorem c9_installer_dispatch (env : DownloadEnv) (fs0 : FsState)
    (res : Except Str DownloadAndOpenResult) (fsE : FsState) (evs : List Event)
    (h : downloadCommand env fs0 = (res, fsE, evs))
    (hreach : reachedRename env = true) (hrnok : isOkB env.renameRes = true) :
    (msiBranch env = true →
        evs.getLast? = some (Event.spawnDetached "msiexec".toList (msiArgsOf env) true) ∧
        ∀ q, Event.openPath q ∉ evs) ∧
    (msiBranch env = false →
        evs.getLast? = some (Event.openPath (finalPathOf env)) ∧
        ∀ pr ar nw, Event.spawnDetached pr ar nw ∉ evs) := by
  simp only [reachedRename, Bool.and_eq_true] at hreach
  obtain ⟨⟨⟨⟨⟨⟨⟨hv0, hcd0⟩, hcb0⟩, hsd0⟩, hst0⟩, hcf0⟩, hso⟩, hfl0⟩ := hreach
  obtain ⟨p, hv⟩ := isOkB_true_exists hv0
  have hcd := isOkB_true_unit hcd0
  have hcb := isOkB_true_unit hcb0
  have hsd := isOkB_true_unit hsd0
  have hst := isOkB_true_unit hst0
  have hcf := isOkB_true_unit hcf0
  have hfl := isOkB_true_unit hfl0
  have hrn := isOkB_true_unit hrnok
  unfold downloadCommand at h
  rw [hv] at h
  dsimp only at h
  rw [hcd] at h
  dsimp only at h
  rw [hcb] at h
  dsimp only at h
  rw [hsd] at h
  dsimp only at h
  rw [hst] at h
  dsimp only at h
  rw [hcf] at h
  dsimp only at h
  generalize hw : writeLoop _ _ _ = wout at h
  obtain ⟨r1, fs3, evs3⟩ := wout
  have hwi := writeLoop_eq_inv _ _ _ _ _ _ hw
  have hr1 : isOkB r1 = true := by rw [hwi.2.2]; exact hso
  cases r1 with
  | error e1 => simp [isOkB] at hr1
  | ok u1 =>
  dsimp only at h
  rw [hfl] at h
  dsimp only at h
  rw [hrn] at h
  dsimp only at h
  have hevs3 := hwi.2.1
  subst hevs3
  cases hm : msiBranch env with
  | true =>
    rw [hm] at h
    dsimp only at h
    refine ⟨fun _ => ?_, fun hc => absurd hc (by simp)⟩
    have hgoal : ∀ evs', evs' =
        ([Event.fsCreateDir (cacheDirOf env), Event.netRequest p.scheme p.host] ++
          [Event.fsCreateFile (cacheDirOf env ++ '/' :: (sanitizeDownloadFileName env.fileName ++ ".partial".toList))] ++
          writeEvents (cacheDirOf env ++ '/' :: (sanitizeDownloadFileName env.fileName ++ ".partial".toList)) env.stream ++
          [Event.fsRename (cacheDirOf env ++ '/' :: (sanitizeDownloadFileName env.fileName ++ ".partial".toList))
              (cacheDirOf env ++ '/' :: sanitizeDownloadFileName env.fileName)]) ++
          [Event.spawnDetached "msiexec".toList (msiArgsOf env) true] →
        evs'.getLast? = some (Event.spawnDetached "msiexec".toList (msiArgsOf env) true) ∧
        ∀ q, Event.openPath q ∉ evs' := by
      intro evs' he
      subst he
      refine ⟨List.getLast?_concat _, ?_⟩
      intro q hq
      simp only [List.mem_append, List.mem_cons, List.not_mem_nil, or_false] at hq
      rcases hq with ((((hq | hq) | hq) | hq) | hq) | hq
      · exact Event.noConfusion hq
      · exact Event.noConfusion hq
      · exact Event.noConfusion hq
      · obtain ⟨b, hb⟩ := mem_writeEvents hq
        exact Event.noConfusion hb
      · exact Event.noConfusion hq
      · exact Event.noConfusion hq
    cases hsp : env.spawnRes with
    | error e1 =>
      rw [hsp] at h
      simp only [Prod.mk.injEq] at h
      exact hgoal evs h.2.2.symm
    | ok usp =>
      rw [hsp] at h
      simp only [Prod.mk.injEq] at h
      exact hgoal evs h.2.2.symm
  | false =>
    rw [hm] at h
    dsimp only at h
    refine ⟨fun hc => absurd hc (by simp), fun _ => ?_⟩
    have hgoal : ∀ evs', evs' =
        ([Event.fsCreateDir (cacheDirOf env), Event.netRequest p.scheme p.host] ++
          [Event.fsCreateFile (cacheDirOf env ++ '/' :: (sanitizeDownloadFileName env.fileName ++ ".partial".toList))] ++
          writeEvents (cacheDirOf env ++ '/' :: (sanitizeDownloadFileName env.fileName ++ ".partial".toList)) env.stream ++
          [Event.fsRename (cacheDirOf env ++ '/' :: (sanitizeDownloadFileName env.fileName ++ ".partial".toList))
              (cacheDirOf env ++ '/' :: sanitizeDownloadFileName env.fileName)]) ++
          [Event.openPath (cacheDirOf env ++ '/' :: sanitizeDownloadFileName env.fileName)] →
        evs'.getLast? = some (Event.openPath (finalPathOf env)) ∧
        ∀ pr ar nw, Event.spawnDetached pr ar nw ∉ evs' := by
      intro evs' he
      subst he
      refine ⟨List.getLast?_concat _, ?_⟩
      intro pr ar nw hq
      simp only [List.mem_append, List.mem_cons, List.not_mem_nil, or_false] at hq
      rcases hq with ((((hq | hq) | hq) | hq) | hq) | hq
      · exact Event.noConfusion hq
      · exact Event.noConfusion hq
      · exact Event.noConfusion hq
      · obtain ⟨b, hb⟩ := mem_writeEvents hq
        exact Event.noConfusion hb
      · exact Event.noConfusion hq
      · exact Event.noConfusion hq
    cases hop : env.openRes with
    | error e1 =>
      rw [hop] at h
      simp only [Prod.mk.injEq] at h
      exact hgoal evs h.2.2.symm
    | ok uop =>
      rw [hop] at h
      simp only [Prod.mk.injEq] at h
      exact hgoal evs h.2.2.symm

/-- The msi environment: everything succeeds on Windows with an
`.msi`-named artifact. -/
def msiEnv : DownloadEnv := { okEnvBase with platform := Platform.windows }

/-- Witness for C9 at a concrete all-success Windows/msi run. -/
theorem c9_installer_dispatch_witness :
    reachedRename msiEnv = true ∧ isOkB msiEnv.renameRes = true ∧
    (downloadCommand msiEnv cleanFs).2.2.getLast? =
      some (Event.spawnDetached "msiexec".toList (msiArgsOf msiEnv) true) ∧
    Event.openPath (finalPathOf msiEnv) ∉ (downloadCommand msiEnv cleanFs).2.2 := by
  have hm := c9_installer_dispatch msiEnv cleanFs _ _ _ rfl rfl rfl
  exact ⟨rfl, rfl, (hm.1 rfl).1, (hm.1 rfl).2 _⟩

/-- C2: the Trust Gate accepts exactly the parses that the spec-side
predicate accepts (absolute URL with scheme `http`/`https`, a present host,
and the lowercased host ending in an allow-listed suffix); acceptance passes
the parsed URL through unchanged; each of the four failure modes produces
its own error message, and the four messages are pairwise distinct. -/
theorem c2_trust_gate_characterisation (r : Except Str ParsedUrl) :
    (isOkB (validateUrl r) = specAuthorizeAccepts r) ∧
    (∀ p, validateUrl r = .ok p → r = .ok p) ∧
    (∀ e, r = .error e → validateUrl r = .error (invalidUrlErr e)) ∧
    (∀ p, r = .ok p → ¬(p.scheme = "http".toList ∨ p.scheme = "https".toList) →
        validateUrl r = .error schemeErr) ∧
    (∀ p, r = .ok p → (p.scheme = "http".toList ∨ p.scheme = "https".toList) →
        p.host = none → validateUrl r = .error missingHostErr) ∧
    (∀ p hst, r = .ok p → (p.scheme = "http".toList ∨ p.scheme = "https".toList) →
        p.host = some hst → hostTrusted hst = false →
        validateUrl r = .error untrustedHostErr) ∧
    (∀ e, invalidUrlErr e ≠ schemeErr ∧ invalidUrlErr e ≠ missingHostErr ∧
        invalidUrlErr e ≠ untrustedHostErr) ∧
    schemeErr ≠ missingHostErr ∧ schemeErr ≠ untrustedHostErr ∧
    missingHostErr ≠ untrustedHostErr := by
  have hdist : ∀ e : Str, invalidUrlErr e ≠ schemeErr ∧ invalidUrlErr e ≠ missingHostErr ∧
      invalidUrlErr e ≠ untrustedHostErr := by
    intro e
    have h1 : (invalidUrlErr e).head? = some '无' := rfl
    refine ⟨fun hEq => ?_, fun hEq => ?_, fun hEq => ?_⟩ <;>
      { rw [hEq] at h1; exact absurd h1 (by decide) }
  refine ⟨?_, ?_, ?_, ?_, ?_, ?_, hdist, by decide, by decide, by decide⟩
  · cases r with
    | error e => rfl
    | ok p =>
      by_cases hs : p.scheme = "http".toList ∨ p.scheme = "https".toList
      · simp only [validateUrl, specAuthorizeAccepts, if_pos hs, decide_eq_true hs, Bool.true_and]
        cases hh : p.host with
        | none => rfl
        | some hstr =>
          cases ht : hostTrusted hstr with
          | false => simp [ht, isOkB]
          | true => simp [ht, isOkB]
      · obtain ⟨hA, hB⟩ := not_or.mp hs
        simp only [validateUrl, specAuthorizeAccepts, if_neg hs, decide_eq_false hs,
          Bool.false_and, isOkB]
  · intro p hp
    cases r with
    | error e => simp [validateUrl] at hp
    | ok q =>
      simp only [validateUrl] at hp
      by_cases hs : q.scheme = "http".toList ∨ q.scheme = "https".toList
      · rw [if_pos hs] at hp
        cases hh : q.host with
        | none => rw [hh] at hp; exact absurd hp (by simp)
        | some hstr =>
          rw [hh] at hp
          dsimp only at hp
          cases ht : hostTrusted hstr with
          | false => rw [ht] at hp; exact absurd hp (by simp)
          | true => rw [ht] at hp; simp at hp; rw [hp]
      · rw [if_neg hs] at hp; exact absurd hp (by simp)
  · intro e he; subst he; rfl
  · intro p hp hs; subst hp; simp only [validateUrl, if_neg hs]
  · intro p hp hs hh; subst hp; simp only [validateUrl, if_pos hs, hh]
  · intro p hstr hp hs hh ht
    subst hp
    simp only [validateUrl, if_pos hs, hh, ht]
    simp

/-- Witness for C2 at the accepted URL `https://cdn.cjjd19.com/…` and the
rejected host `evil.com`. -/
theorem c2_trust_gate_witness :
    isOkB (validateUrl (.ok okParsedUrl)) = specAuthorizeAccepts (.ok okParsedUrl) ∧
    validateUrl (.ok { scheme := "https".toList, host := some "evil.com".toList }) =
      .error untrustedHostErr := by
  have h1 := (c2_trust_gate_characterisation (.ok okParsedUrl)).1
  have h2 := (c2_trust_gate_characterisation
      (.ok { scheme := "https".toList, host := some "evil.com".toList })).2.2.2.2.2.1
  exact ⟨h1, h2 _ "evil.com".toList rfl (Or.inr rfl) rfl rfl⟩

/-! ## Semver extraction (`extract_version`, lines 290–296) -/

/-- The regex class `\d`, modelled on ASCII digits. -/
def isDigitChar (c : Char) : Bool := c.isDigit

/-- The regex class `[\w.]`, modelled on ASCII word characters plus dot. -/
def isWordDotChar (c : Char) : Bool := c.isAlphanum || c = '_' || c = '.'

/-- One attempt of the pattern `\d+\.\d+\.\d+(-[\w.]+)?` anchored at the
start of `s`: greedy digit runs, two dots, and an optional hyphenated
pre-release tag of word/dot characters. -/
def matchSemverAt (s : Str) : Option Str :=
  let p1 := s.span isDigitChar
  if p1.1 = [] then none else
  match p1.2 with
  | '.' :: r2 =>
    let p2 := r2.span isDigitChar
    if p2.1 = [] then none else
    match p2.2 with
    | '.' :: r4 =>
      let p3 := r4.span isDigitChar
      if p3.1 = [] then none else
      let core := p1.1 ++ '.' :: p2.1 ++ '.' :: p3.1
      match p3.2 with
      | '-' :: r6 =>
        let pw := r6.span isWordDotChar
        if pw.1 = [] then some core else some (core ++ '-' :: pw.1)
      | _ => some core
    | _ => none
  | _ => none

/-- `Regex::find`: the match at the leftmost start position where the
pattern matches. -/
def findSemver : Str → Option Str
  | [] => none
  | c :: rest =>
    match matchSemverAt (c :: rest) with
    | some m => some m
    | none => findSemver rest

/-- `extract_version`: the first semver-shaped substring, or the raw input
unchanged when there is none. -/
def extractVersion (raw : Str) : Str := (findSemver raw).getD raw

example : extractVersion "v1.2.3 (build 4)".toList = "1.2.3".toList := by decide
example : extractVersion "1.2.3-beta.1".toList = "1.2.3-beta.1".toList := by decide
example : extractVersion "no version here".toList = "no version here".toList := by decide

/-! ## Tool Locator (`try_get_version`, `scan_cli_version`) -/

/-- A captured process result (`std::process::Output`): exit status and the
two output streams. -/
structure ProcessOutput where
  success : Bool
  stdout : Str
  stderr : Str
deriving Repr

def notInstalledMsg : Str := "未安装或无法执行".toList

/-- `try_get_version` (lines 299–343): run `<tool> --version` through the
shell; on success prefer trimmed stdout, fall back to stderr; empty output
or a failure status becomes an error message; a spawn failure records the
spawn error.  The input is the outcome of `Command::output()`. -/
def tryGetVersion (out : Except Str ProcessOutput) : Option Str × Option Str :=
  match out with
  | .ok o =>
    let stdout := rustTrim o.stdout
    let stderr := rustTrim o.stderr
    if o.success then
      let raw := if stdout = [] then stderr else stdout
      if raw = [] then (none, some notInstalledMsg)
      else (some (extractVersion raw), none)
    else
      let err := if stderr = [] then stdout else stderr
      (none, some (if err = [] then notInstalledMsg else err))
  | .error e => (none, some e)

/-- One candidate directory of the fallback scan: whether the tool
executable exists directly inside it, and — when it is invoked — the
outcome of `Command::output()`. -/
structure Candidate where
  pathExists : Bool
  output : Except Str ProcessOutput
deriving Repr

/-- `scan_cli_version` (lines 392–434, the per-directory loop over the
ordered candidate list): skip candidates whose executable is absent; run the
first existing one; return its extracted version on a successful, non-empty
output; otherwise keep scanning; fall back to the not-installed error. -/
def scanCliVersion : List Candidate → Option Str × Option Str
  | [] => (none, some notInstalledMsg)
  | c :: rest =>
    if c.pathExists then
      match c.output with
      | .ok o =>
        let stdout := rustTrim o.stdout
        let stderr := rustTrim o.stderr
        if o.success then
          let raw := if stdout = [] then stderr else stdout
          if raw ≠ [] then (some (extractVersion raw), none) else scanCliVersion rest
        else scanCliVersion rest
      | .error _ => scanCliVersion rest
    else scanCliVersion rest

/-- The per-tool local lookup of `get_tool_versions` (lines 240–250): the
direct attempt, falling back to the scan only when it produced no version. -/
def locateVersion (direct : Except Str ProcessOutput) (cands : List Candidate) :
    Option Str × Option Str :=
  let d := tryGetVersion direct
  if d.1.isSome then d else scanCliVersion cands

/-- A candidate that will terminate the scan: executable present, invocation
captured, successful status and some non-empty trimmed output. -/
def usableCand (c : Candidate) : Bool :=
  c.pathExists &&
  (match c.output with
   | .ok o => o.success && (decide (rustTrim o.stdout ≠ []) || decide (rustTrim o.stderr ≠ []))
   | .error _ => false)

theorem tryGetVersion_shape (out : Except Str ProcessOutput) :
    (∃ v, tryGetVersion out = (some v, none)) ∨ (∃ e, tryGetVersion out = (none, some e)) := by
  cases out with
  | error e => exact Or.inr ⟨e, rfl⟩
  | ok o =>
    simp only [tryGetVersion]
    cases hsucc : o.success with
    | true =>
      simp only [if_pos rfl]
      by_cases h1 : rustTrim o.stdout = []
      · rw [if_pos h1]
        by_cases h2 : rustTrim o.stderr = []
        · rw [if_pos h2]; exact Or.inr ⟨notInstalledMsg, rfl⟩
        · rw [if_neg h2]; exact Or.inl ⟨_, rfl⟩
      · rw [if_neg h1]
        rw [if_neg h1]
        exact Or.inl ⟨_, rfl⟩
    | false =>
      simp only [Bool.false_eq_true, if_false]
      exact Or.inr ⟨_, rfl⟩

/-- An unusable candidate (absent, failed to spawn, unsuccessful exit, or
empty output) never terminates the scan: the result is that of the remaining
candidates. -/
theorem scanCliVersion_cons_unusable (c : Candidate) (rest : List Candidate)
    (h : usableCand c = false) :
    scanCliVersion (c :: rest) = scanCliVersion rest := by
  by_cases hex : c.pathExists = true
  · cases hout : c.output with
    | error e => simp [scanCliVersion, hex, hout]
    | ok o =>
      cases hsucc : o.success with
      | false => simp [scanCliVersion, hex, hout, hsucc]
      | true =>
        simp only [usableCand, hout, hex, hsucc, Bool.true_and, Bool.or_eq_false_iff,
          decide_eq_false_iff_not, not_not] at h
        simp [scanCliVersion, hex, hout, hsucc, h.1, h.2]
  · simp [scanCliVersion, hex]

/-- A usable candidate terminates the scan with a version and no error. -/
theorem scanCliVersion_cons_usable (c : Candidate) (rest : List Candidate)
    (h : usableCand c = true) :
    ∃ v, scanCliVersion (c :: rest) = (some v, none) := by
  cases hout : c.output with
  | error e => simp [usableCand, hout] at h
  | ok o =>
    simp only [usableCand, hout, Bool.and_eq_true, Bool.or_eq_true,
      decide_eq_true_eq] at h
    obtain ⟨hex, hsucc, hne⟩ := h
    by_cases h1 : rustTrim o.stdout = []
    · have h2 : rustTrim o.stderr ≠ [] := by
        rcases hne with hne | hne
        · exact absurd h1 hne
        · exact hne
      exact ⟨extractVersion (rustTrim o.stderr), by simp [scanCliVersion, hex, hout, hsucc, h1, h2]⟩
    · exact ⟨extractVersion (rustTrim o.stdout), by simp [scanCliVersion, hex, hout, hsucc, h1]⟩

theorem scanCliVersion_shape (cands : List Candidate) :
    (∃ v, scanCliVersion cands = (some v, none)) ∨
    scanCliVersion cands = (none, some notInstalledMsg) := by
  induction cands with
  | nil => exact Or.inr rfl
  | cons c rest ih =>
    cases hu : usableCand c with
    | true => exact Or.inl (scanCliVersion_cons_usable c rest hu)
    | false => rw [scanCliVersion_cons_unusable c rest hu]; exact ih

/-! ## Registry Client and Version Reconciler
(`fetch_npm_latest_version`, `get_tool_versions`) -/

/-- A JSON value, as far as `fetch_npm_latest_version` inspects it. -/
inductive Json where
  | str (s : String)
  | obj (fields : List (String × Json))
  | other
deriving Repr

/-- `serde_json::Value::get` on an object: the first field with the key. -/
def jsonGet : Json → String → Option Json
  | .obj fields, key => (fields.find? (fun kv => kv.1 == key)).map (fun kv => kv.2)
  | _, _ => none

/-- `serde_json::Value::as_str`. -/
def jsonAsStr : Json → Option String
  | .str s => some s
  | _ => none

/-- The observable outcome of the registry GET: the send fails, or a
response arrives whose body either fails to parse as JSON or yields a
value. -/
inductive RegistryResponse where
  | sendErr
  | response (body : Except Unit Json)

/-- `fetch_npm_latest_version` (lines 272–287): any transport error,
non-JSON body, missing `dist-tags`/`latest` field or non-string value is
absorbed into `none`; a present string value is returned. -/
def fetchNpmLatestVersion (package : String) (r : RegistryResponse) : Option String :=
  match r with
  | .sendErr => none
  | .response (.error _) => none
  | .response (.ok j) =>
    ((jsonGet j "dist-tags").bind (fun tags => jsonGet tags "latest")).bind jsonAsStr

/-- The external world one tool's lookup sees: the direct attempt's process
outcome, the fallback candidate list, and the registry response. -/
structure ToolEnv where
  direct : Except Str ProcessOutput
  scanCands : List Candidate
  registry : RegistryResponse

/-- The `ToolVersion` report struct (lines 219–225). -/
structure ToolVersion where
  name : String
  version : Option Str
  latest_version : Option String
  error : Option Str

/-- The fixed tool-to-package mapping of lines 253–258. -/
def npmPackageFor : String → Option String
  | "claude" => some "@anthropic-ai/claude-code"
  | "codex" => some "@openai/codex"
  | "gemini" => some "@google/gemini-cli"
  | _ => none

/-- One iteration of the `get_tool_versions` loop (lines 238–266): local
lookup via direct attempt plus scan, and the independent registry lookup. -/
def mkToolReport (tool : String) (env : ToolEnv) : ToolVersion :=
  let lv := locateVersion env.direct env.scanCands
  let latest :=
    match npmPackageFor tool with
    | some p => fetchNpmLatestVersion p env.registry
    | none => none
  { name := tool, version := lv.1, latest_version := latest, error := lv.2 }

/-- `get_tool_versions` (lines 228–269): build the client, then one report
per tool of the fixed list, in order. -/
def getToolVersions (clientBuild : Except String Unit) (envOf : String → ToolEnv) :
    Except String (List ToolVersion) :=
  match clientBuild with
  | .error e => .error e
  | .ok _ => .ok ((["claude", "codex", "gemini"]).map (fun t => mkToolReport t (envOf t)))

/-- C6: for every tool and every environment the local lookup populates
exactly one of version and error, and the latest (registry) version is
independent of that pair: the local pair never depends on the registry
response, and the latest field is exactly the registry lookup. -/
theorem c6_local_result_exclusive (direct : Except Str ProcessOutput)
    (cands : List Candidate) (tool : String) (env : ToolEnv)
    (reg reg' : RegistryResponse) :
    (((locateVersion direct cands).1.isSome = true ∧ (locateVersion direct cands).2 = none) ∨
      ((locateVersion direct cands).1 = none ∧ (locateVersion direct cands).2.isSome = true)) ∧
    ((mkToolReport tool { env with registry := reg }).version =
        (mkToolReport tool { env with registry := reg' }).version ∧
      (mkToolReport tool { env with registry := reg }).error =
        (mkToolReport tool { env with registry := reg' }).error) ∧
    (mkToolReport tool env).version = (locateVersion env.direct env.scanCands).1 ∧
    (mkToolReport tool env).error = (locateVersion env.direct env.scanCands).2 ∧
    (mkToolReport tool env).latest_version =
      (match npmPackageFor tool with
        | some p => fetchNpmLatestVersion p env.registry
        | none => none) := by
  refine ⟨?_, ⟨rfl, rfl⟩, rfl, rfl, rfl⟩
  rcases tryGetVersion_shape direct with ⟨v, hd⟩ | ⟨e, hd⟩
  · exact Or.inl (by simp [locateVersion, hd])
  · rcases scanCliVersion_shape cands with ⟨v, hs⟩ | hs
    · exact Or.inl (by simp [locateVersion, hd, hs])
    · exact Or.inr (by simp [locateVersion, hd, hs, notInstalledMsg])

/-- C8: with the client built, the command returns `Ok` with exactly one
report per tracked tool in the order claude, codex, gemini; every registry
lookup failure (transport error, non-JSON body, missing `dist-tags`) is
absorbed as `latest_version = none` and the local pair of each report never
depends on the registry response. -/
theorem c8_reconciler_order_and_soft_fail (envOf : String → ToolEnv) (j : Json)
    (hj : jsonGet j "dist-tags" = none) (p : String) (tool : String) (env : ToolEnv)
    (reg' : RegistryResponse) :
    getToolVersions (.ok ()) envOf =
      .ok [mkToolReport "claude" (envOf "claude"), mkToolReport "codex" (envOf "codex"),
           mkToolReport "gemini" (envOf "gemini")] ∧
    (getToolVersions (.ok ()) envOf).map (fun l => l.map (fun r => r.name)) =
      .ok ["claude", "codex", "gemini"] ∧
    fetchNpmLatestVersion p .sendErr = none ∧
    fetchNpmLatestVersion p (.response (.error ())) = none ∧
    fetchNpmLatestVersion p (.response (.ok j)) = none ∧
    (mkToolReport tool { env with registry := reg' }).version = (mkToolReport tool env).version ∧
    (mkToolReport tool { env with registry := reg' }).error = (mkToolReport tool env).error := by
  refine ⟨rfl, rfl, rfl, rfl, ?_, rfl, rfl⟩
  simp [fetchNpmLatestVersion, hj]

/-- Witness for C8 with an object lacking `dist-tags`. -/
theorem c8_reconciler_order_and_soft_fail_witness :
    getToolVersions (.ok ())
        (fun _ => ⟨.error "no tool".toList, [], .sendErr⟩) =
      .ok [mkToolReport "claude" ⟨.error "no tool".toList, [], .sendErr⟩,
           mkToolReport "codex" ⟨.error "no tool".toList, [], .sendErr⟩,
           mkToolReport "gemini" ⟨.error "no tool".toList, [], .sendErr⟩] ∧
    (getToolVersions (.ok ()) (fun _ => ⟨.error "no tool".toList, [], .sendErr⟩)).map
        (fun l => l.map (fun r => r.name)) = .ok ["claude", "codex", "gemini"] ∧
    fetchNpmLatestVersion "@openai/codex" .sendErr = none ∧
    fetchNpmLatestVersion "@openai/codex" (.response (.error ())) = none ∧
    fetchNpmLatestVersion "@openai/codex" (.response (.ok (Json.obj []))) = none ∧
    (mkToolReport "codex" { (⟨.error "e".toList, [], .sendErr⟩ : ToolEnv) with
        registry := .response (.error ()) }).version =
      (mkToolReport "codex" ⟨.error "e".toList, [], .sendErr⟩).version ∧
    (mkToolReport "codex" { (⟨.error "e".toList, [], .sendErr⟩ : ToolEnv) with
        registry := .response (.error ()) }).error =
      (mkToolReport "codex" ⟨.error "e".toList, [], .sendErr⟩).error :=
  c8_reconciler_order_and_soft_fail (fun _ => ⟨.error "no tool".toList, [], .sendErr⟩)
    (Json.obj []) rfl "@openai/codex" "codex" ⟨.error "e".toList, [], .sendErr⟩
    (.response (.error ()))

/-- All-unusable candidate lists end in the generic not-installed error. -/
theorem scanCliVersion_all_unusable (cands : List Candidate)
    (h : ∀ d ∈ cands, usableCand d = false) :
    scanCliVersion cands = (none, some notInstalledMsg) := by
  induction cands with
  | nil => rfl
  | cons c rest ih =>
    rw [scanCliVersion_cons_unusable c rest (h c (by simp))]
    exact ih fun d hd => h d (by simp [hd])

/-- C10: a candidate whose executable exists but whose invocation fails to
spawn, exits unsuccessfully, or prints only empty output does not terminate
the scan — the result is that of the remaining candidates — and when no
candidate is usable the scan returns the generic not-installed error. -/
theorem c10_scan_continues_past_unusable (c : Candidate) (rest : List Candidate)
    (cands : List Candidate) (hex : c.pathExists = true) (hu : usableCand c = false)
    (hall : ∀ d ∈ cands, usableCand d = false) :
    scanCliVersion (c :: rest) = scanCliVersion rest ∧
    scanCliVersion cands = (none, some notInstalledMsg) :=
  ⟨scanCliVersion_cons_unusable c rest hu, scanCliVersion_all_unusable cands hall⟩

/-- Witness for C10: an existing candidate that exits with failure status is
skipped, and a list of such candidates yields the not-installed error. -/
theorem c10_scan_continues_past_unusable_witness :
    scanCliVersion [⟨true, .ok ⟨false, "boom".toList, []⟩⟩] = scanCliVersion [] ∧
    scanCliVersion [⟨true, .ok ⟨false, "boom".toList, []⟩⟩] = (none, some notInstalledMsg) :=
  c10_scan_continues_past_unusable ⟨true, .ok ⟨false, "boom".toList, []⟩⟩ []
    [⟨true, .ok ⟨false, "boom".toList, []⟩⟩] rfl (by decide) (by decide)

theorem matchSemverAt_nil : matchSemverAt [] = none := rfl

theorem findSemver_eq_of (raw : Str) (i : Nat) (m : Str)
    (hnone : ∀ j, j < i → matchSemverAt (raw.drop j) = none)
    (hm : matchSemverAt (raw.drop i) = some m) : findSemver raw = some m := by
  induction raw generalizing i with
  | nil =>
    rw [List.drop_nil] at hm
    rw [matchSemverAt_nil] at hm
    exact absurd hm (by simp)
  | cons c rest ih =>
    cases i with
    | zero =>
      rw [List.drop_zero] at hm
      simp [findSemver, hm]
    | succ i' =>
      have h0 : matchSemverAt (c :: rest) = none := by
        have := hnone 0 (Nat.succ_pos i')
        rwa [List.drop_zero] at this
      rw [findSemver, h0]
      exact ih i' (fun j hj => hnone (j + 1) (Nat.succ_lt_succ hj)) hm

theorem findSemver_none_of (raw : Str)
    (h : ∀ j, matchSemverAt (raw.drop j) = none) : findSemver raw = none := by
  induction raw with
  | nil => rfl
  | cons c rest ih =>
    have h0 : matchSemverAt (c :: rest) = none := by
      have := h 0
      rwa [List.drop_zero] at this
    rw [findSemver, h0]
    exact ih fun j => h (j + 1)

/-- C7: `extract_version` returns the match found at the leftmost position
where the semver pattern `\d+\.\d+\.\d+(-[\w.]+)?` matches, and the raw
input unchanged when no position matches; in particular the three spec
examples hold. -/
theorem c7_extract_version_spec (raw : Str) :
    (extractVersion "v1.2.3 (build 4)".toList = "1.2.3".toList ∧
      extractVersion "1.2.3-beta.1".toList = "1.2.3-beta.1".toList ∧
      extractVersion "no version here".toList = "no version here".toList) ∧
    ((∀ j, matchSemverAt (raw.drop j) = none) → extractVersion raw = raw) ∧
    (∀ i m, (∀ j, j < i → matchSemverAt (raw.drop j) = none) →
        matchSemverAt (raw.drop i) = some m → extractVersion raw = m) := by
  refine ⟨⟨by decide, by decide, by decide⟩, ?_, ?_⟩
  · intro h
    rw [extractVersion, findSemver_none_of raw h]
    rfl
  · intro i m h1 h2
    rw [extractVersion, findSemver_eq_of raw i m h1 h2]
    rfl

/-- Witness for C7: on `"v1.2.3 (build 4)"` the first matching position is
index 1 and the extracted token is `"1.2.3"`. -/
theorem c7_extract_version_spec_witness :
    extractVersion "v1.2.3 (build 4)".toList = "1.2.3".toList :=
  (c7_extract_version_spec "v1.2.3 (build 4)".toList).2.2 1 "1.2.3".toList
    (by decide) (by decide)

/-! ## Sanitizer properties (C5) -/

theorem splitOnChar_of_not_mem (sep : Char) (l : Str) (h : sep ∉ l) :
    splitOnChar sep l = [l] := by
  induction l with
  | nil => rfl
  | cons c rest ih =>
    have hc : ¬c = sep := fun hcs => h (by simp [hcs])
    have hrest : sep ∉ rest := fun hr => h (by simp [hr])
    rw [splitOnChar]
    simp only [if_neg hc, ih hrest]

theorem mem_dropWhile (p : Char → Bool) (l : Str) (c : Char)
    (h : c ∈ l.dropWhile p) : c ∈ l := by
  induction l with
  | nil => simpa using h
  | cons d rest ih =>
    rw [List.dropWhile_cons] at h
    by_cases hd : p d = true
    · rw [if_pos hd] at h; exact List.mem_cons_of_mem d (ih h)
    · rw [if_neg hd] at h; exact h

theorem mem_dropTrailing (p : Char → Bool) (l : Str) (c : Char)
    (h : c ∈ dropTrailing p l) : c ∈ l := by
  rw [dropTrailing, List.mem_reverse] at h
  exact List.mem_reverse.mp (mem_dropWhile p l.reverse c h)

theorem mem_rustTrim (l : Str) (c : Char) (h : c ∈ rustTrim l) : c ∈ l :=
  mem_dropWhile isRustWs l c (mem_dropTrailing isRustWs (l.dropWhile isRustWs) c h)

theorem dropWhile_suffix_exists (p : Char → Bool) (l : Str) :
    ∃ s, s ++ l.dropWhile p = l := by
  induction l with
  | nil => exact ⟨[], rfl⟩
  | cons c rest ih =>
    rw [List.dropWhile_cons]
    by_cases hc : p c = true
    · obtain ⟨s, hs⟩ := ih
      exact ⟨c :: s, by rw [if_pos hc]; simp [hs]⟩
    · exact ⟨[], by rw [if_neg hc]; rfl⟩

theorem dropTrailing_prefix_exists (p : Char → Bool) (l : Str) :
    ∃ s, dropTrailing p l ++ s = l := by
  obtain ⟨s, hs⟩ := dropWhile_suffix_exists p l.reverse
  refine ⟨s.reverse, ?_⟩
  have := congrArg List.reverse hs
  simpa [dropTrailing] using this

theorem head?_of_prefix (t u l : Str) (h : t ++ u = l) (ht : t ≠ []) :
    l.head? = t.head? := by
  cases t with
  | nil => exact absurd rfl ht
  | cons c rest => rw [← h]; rfl

theorem head?_dropWhile_not (p : Char → Bool) (l : Str) (c : Char)
    (h : (l.dropWhile p).head? = some c) : p c = false := by
  induction l with
  | nil => simp at h
  | cons d rest ih =>
    rw [List.dropWhile_cons] at h
    by_cases hd : p d = true
    · rw [if_pos hd] at h; exact ih h
    · rw [if_neg hd] at h
      simp only [List.head?_cons, Option.some.injEq] at h
      rw [← h]
      exact Bool.not_eq_true _ ▸ eq_false_of_ne_true hd

theorem head?_rustTrim_not_ws (l : Str) (c : Char)
    (h : (rustTrim l).head? = some c) : isRustWs c = false := by
  rw [rustTrim] at h
  obtain ⟨s, hs⟩ := dropTrailing_prefix_exists isRustWs (l.dropWhile isRustWs)
  by_cases hne : dropTrailing isRustWs (l.dropWhile isRustWs) = []
  · rw [hne] at h; simp at h
  · have := head?_of_prefix _ _ _ hs hne
    rw [← this] at h
    exact head?_dropWhile_not isRustWs l c h

theorem dropWhile_eq_self_of_head (p : Char → Bool) (l : Str)
    (h : ∀ c, l.head? = some c → p c = false) : l.dropWhile p = l := by
  cases l with
  | nil => rfl
  | cons c rest =>
    rw [List.dropWhile_cons, if_neg]
    simp [h c rfl]

theorem dropTrailing_eq_self (p : Char → Bool) (l : Str)
    (h : ∀ c, l.getLast? = some c → p c = false) : dropTrailing p l = l := by
  rw [dropTrailing, dropWhile_eq_self_of_head p l.reverse, List.reverse_reverse]
  intro c hc
  rw [List.head?_reverse] at hc
  exact h c hc

theorem map_id_of_mem (f : Char → Char) (l : Str) (h : ∀ c ∈ l, f c = c) :
    l.map f = l := by
  induction l with
  | nil => rfl
  | cons c rest ih =>
    rw [List.map_cons, h c (by simp), ih fun d hd => h d (by simp [hd])]

theorem rustFileName_id (t : Str) (hne : t ≠ []) (hslash : '/' ∉ t)
    (hdot : t ≠ ['.']) (hdots : t ≠ ['.', '.']) : rustFileName t = some t := by
  rw [rustFileName, splitOnChar_of_not_mem '/' t hslash]
  have hfil : [t].filter (fun c => !(c = [] || c = ['.'])) = [t] := by
    simp [List.filter, hne, hdot]
  rw [hfil]
  simp [hdots]

/-- The final taken character of a string ends in whitespace. -/
def endsWithWs (l : Str) : Bool :=
  match l.getLast? with
  | some c => isRustWs c
  | none => false

theorem sanitize_props (s : Str) :
    sanitizeDownloadFileName s ≠ [] ∧
    (∀ c ∈ sanitizeDownloadFileName s, forbiddenChar c = false) ∧
    (sanitizeDownloadFileName s).length ≤ 120 ∧
    (∀ c, (sanitizeDownloadFileName s).head? = some c → isRustWs c = false) := by
  have hout : ∀ c ∈ (((rustFileName s).getD fallbackName).map
      (fun ch => if forbiddenChar ch then '_' else ch)), forbiddenChar c = false := by
    intro c hc
    rcases List.mem_map.mp hc with ⟨d, hd, heq⟩
    subst heq
    cases hfd : forbiddenChar d with
    | true => exact (by decide : forbiddenChar '_' = false)
    | false => exact hfd
  have hsan : sanitizeDownloadFileName s =
      (if rustTrim (((rustFileName s).getD fallbackName).map
          (fun ch => if forbiddenChar ch then '_' else ch)) = []
       then fallbackName
       else (rustTrim (((rustFileName s).getD fallbackName).map
          (fun ch => if forbiddenChar ch then '_' else ch))).take 120) := rfl
  rw [hsan]
  by_cases htr : rustTrim (((rustFileName s).getD fallbackName).map
      (fun ch => if forbiddenChar ch then '_' else ch)) = []
  · rw [if_pos htr]
    refine ⟨by decide, by decide, by decide, by decide⟩
  · rw [if_neg htr]
    refine ⟨?_, ?_, ?_, ?_⟩
    · cases hrt : rustTrim (((rustFileName s).getD fallbackName).map
          (fun ch => if forbiddenChar ch then '_' else ch)) with
      | nil => exact absurd hrt htr
      | cons c rest => simp
    · intro c hc
      exact hout c (mem_rustTrim _ c (List.take_subset _ _ hc))
    · rw [List.length_take]
      exact Nat.min_le_left _ _
    · intro c hc
      have h120 : ∀ l : Str, (l.take 120).head? = some c → l.head? = some c := by
        intro l
        cases l with
        | nil => simp
        | cons d rest => simp
      exact head?_rustTrim_not_ws _ c (h120 _ hc)

/-- C5 (counterexample): sanitization is not idempotent.  `" .. "` sanitizes
to `".."` (a normal component once the spaces are trimmed), but sanitizing
`".."` again hits the `Path::file_name` degenerate case and yields the
fallback name. -/
theorem c5_counterexample_not_idempotent :
    sanitizeDownloadFileName (sanitizeDownloadFileName " .. ".toList) ≠
      sanitizeDownloadFileName " .. ".toList := by
  decide

/-- C5 (amended): sanitization is idempotent for every input whose sanitized
form is neither `"."` nor `".."` and does not end in whitespace (a trailing
whitespace can only arise from the 120-character truncation); the output
never contains a forbidden character, and empty input yields the fixed
fallback name. -/
theorem c5_amended_sanitize (s : Str)
    (hdots : sanitizeDownloadFileName s ≠ ['.', '.'])
    (hdot : sanitizeDownloadFileName s ≠ ['.'])
    (hws : endsWithWs (sanitizeDownloadFileName s) = false) :
    sanitizeDownloadFileName (sanitizeDownloadFileName s) = sanitizeDownloadFileName s ∧
    (∀ c ∈ sanitizeDownloadFileName s, forbiddenChar c = false) ∧
    sanitizeDownloadFileName [] = fallbackName := by
  obtain ⟨hne, hforb, hlen, hhead⟩ := sanitize_props s
  refine ⟨?_, hforb, by decide⟩
  have hslash : '/' ∉ sanitizeDownloadFileName s := fun hin => by
    have := hforb '/' hin
    exact absurd this (by decide)
  have hfn : rustFileName (sanitizeDownloadFileName s) = some (sanitizeDownloadFileName s) :=
    rustFileName_id _ hne hslash hdot hdots
  have hmap : (sanitizeDownloadFileName s).map
      (fun ch => if forbiddenChar ch then '_' else ch) = sanitizeDownloadFileName s :=
    map_id_of_mem _ _ (fun c hc => by rw [if_neg (by simp [hforb c hc])])
  have htrim : rustTrim (sanitizeDownloadFileName s) = sanitizeDownloadFileName s := by
    rw [rustTrim, dropWhile_eq_self_of_head isRustWs _ hhead]
    refine dropTrailing_eq_self _ _ (fun c hc => ?_)
    rw [endsWithWs, hc] at hws
    exact hws
  show (if rustTrim (((rustFileName (sanitizeDownloadFileName s)).getD fallbackName).map
        (fun ch => if forbiddenChar ch then '_' else ch)) = []
      then fallbackName
      else (rustTrim (((rustFileName (sanitizeDownloadFileName s)).getD fallbackName).map
        (fun ch => if forbiddenChar ch then '_' else ch))).take 120) =
      sanitizeDownloadFileName s
  rw [hfn]
  simp only [Option.getD_some]
  rw [hmap, htrim, if_neg hne]
  exact List.take_of_length_le hlen

/-- Witness for the amended C5 at the already-clean name `"pkg.msi"`. -/
theorem c5_amended_sanitize_witness :
    sanitizeDownloadFileName (sanitizeDownloadFileName "pkg.msi".toList) =
      sanitizeDownloadFileName "pkg.msi".toList ∧
    forbiddenChar 'p' = false ∧
    sanitizeDownloadFileName [] = fallbackName :=
  ⟨(c5_amended_sanitize "pkg.msi".toList (by decide) (by decide) (by decide)).1,
   (c5_amended_sanitize "pkg.msi".toList (by decide) (by decide) (by decide)).2.1 'p' (by decide),
   (c5_amended_sanitize "pkg.msi".toList (by decide) (by decide) (by decide)).2.2⟩
